import Mathlib

/-!
Verification of the geometry reconstruction engine of `fetch.py`
(OSM Overpass → GeoJSON converter).

Coordinates are modelled as rational numbers `ℚ`; a coordinate pair
`[lon, lat]` is a `Coord := ℚ × ℚ`.  Tag dictionaries are association
lists with first-match lookup.  All definitions follow the Python
source (`coords_from_geometry`, `is_area`, `is_closed`,
`point_in_polygon`, `ring_centroid`, `merge_ways_into_rings`,
`build_multipolygon`, `element_to_feature`, `elements_to_features`).
-/

namespace Fetch

/-- A GeoJSON coordinate pair `[lon, lat]`. -/
abbrev Coord : Type := ℚ × ℚ

/-- An ordered coordinate sequence (a way geometry / chain / ring). -/
abbrev Chain : Type := List Coord

/-- An Overpass geometry point `{lat, lon}` (also used for `center`). -/
structure Pt where
  lat : ℚ
  lon : ℚ
deriving DecidableEq, Repr

/-- `coords_from_geometry`: convert an Overpass geometry array
`[{lat,lon}|null, ...]` to `[[lon,lat],...]`, skipping null entries. -/
def coords_from_geometry (geom_array : List (Option Pt)) : Chain :=
  geom_array.foldr
    (fun pt acc =>
      match pt with
      | none => acc
      | some p => (p.lon, p.lat) :: acc)
    []

/-- The tag dictionary of an element: string→string with first-match lookup. -/
abbrev Tags : Type := List (String × String)

/-- `AREA_TAG_KEYS` from the source: keys whose presence marks a closed way
as an area. -/
def AREA_TAG_KEYS : List String :=
  ["building", "landuse", "natural", "leisure", "amenity", "shop",
   "boundary", "historic", "place", "area:highway", "craft", "office",
   "tourism", "aeroway"]

/-- `AREA_TAG_VALUES` from the source: specific `key=value` pairs with area
semantics. -/
def AREA_TAG_VALUES : List (String × String) :=
  [("highway", "rest_area"), ("highway", "services"), ("leisure", "track"),
   ("natural", "water"), ("waterway", "riverbank"), ("waterway", "dock"),
   ("waterway", "boatyard")]

/-- `is_area`: decide whether a closed way should be a Polygon, following the
source's rule order (`if not tags`, explicit `area` override, key set,
key=value table). -/
def is_area (tags : Tags) : Bool :=
  if tags.isEmpty then false
  else if tags.lookup "area" = some "yes" then true
  else if tags.lookup "area" = some "no" then false
  else if AREA_TAG_KEYS.any (fun key => (tags.lookup key).isSome) then true
  else if AREA_TAG_VALUES.any (fun kv => tags.lookup kv.1 = some kv.2) then true
  else false

/-- Modelled from the spec (§4.3), for comparison with `is_area`: first-match
precedence `area=yes` → true, `area=no` → false, area-indicating key → true,
key=value exception table → true, otherwise false. -/
def is_area_spec (tags : Tags) : Bool :=
  if tags.lookup "area" = some "yes" then true
  else if tags.lookup "area" = some "no" then false
  else if AREA_TAG_KEYS.any (fun key => (tags.lookup key).isSome) then true
  else AREA_TAG_VALUES.any (fun kv => tags.lookup kv.1 = some kv.2)

/-- `is_closed`: a coordinate ring is closed iff it has at least 4 points and
its first pair's lon and lat exactly equal the last pair's. -/
def is_closed (coords : Chain) : Bool :=
  if coords.length < 4 then false
  else decide ((coords.headD (0, 0)).1 = (coords.getLastD (0, 0)).1)
       && decide ((coords.headD (0, 0)).2 = (coords.getLastD (0, 0)).2)

/-- The ray-casting crossing condition `(yi > y) != (yj > y)` of
`point_in_polygon`; the interpolation divisor `yj - yi` is used only under
this condition. -/
def crossing (y yi yj : ℚ) : Bool :=
  decide (yi > y) != decide (yj > y)

/-- `point_in_polygon`: ray-casting test; iterates edges `(i, j)` with `j`
the previous index (wrapping to `n-1` for `i = 0`) and toggles the inside
flag at each crossing. -/
def point_in_polygon (point : Coord) (ring : Chain) : Bool :=
  let x := point.1
  let y := point.2
  let n := ring.length
  (List.range n).foldl
    (fun inside i =>
      let pI := ring.getD i (0, 0)
      let pJ := ring.getD (if i = 0 then n - 1 else i - 1) (0, 0)
      if crossing y pI.2 pJ.2
          && decide (x < (pJ.1 - pI.1) * (y - pI.2) / (pJ.2 - pI.2) + pI.1)
      then !inside else inside)
    false

/-- `ring_centroid`: unweighted coordinate-average centroid, `[0, 0]` for an
empty ring. -/
def ring_centroid (ring : Chain) : Coord :=
  if ring = [] then (0, 0)
  else ((ring.map Prod.fst).sum / (ring.length : ℚ),
        (ring.map Prod.snd).sum / (ring.length : ℚ))

/-- The unit square ring `[[0,0],[1,0],[1,1],[0,1],[0,0]]` of the §8
examples. -/
def unitSquare : Chain := [(0, 0), (1, 0), (1, 1), (0, 1), (0, 0)]

/-- Whether `p` lies on the closed segment from `a` to `b` (collinear and
within the bounding box of the segment). -/
def onSegment (p a b : Coord) : Bool :=
  decide ((b.1 - a.1) * (p.2 - a.2) = (b.2 - a.2) * (p.1 - a.1))
  && decide (min a.1 b.1 ≤ p.1 ∧ p.1 ≤ max a.1 b.1
             ∧ min a.2 b.2 ≤ p.2 ∧ p.2 ≤ max a.2 b.2)

/-- Whether `p` lies on the boundary of a ring: on some edge between
consecutive ring vertices. -/
def onRingBoundary (p : Coord) (ring : Chain) : Bool :=
  (ring.zip ring.tail).any (fun ab => onSegment p ab.1 ab.2)

/-- Closure characterization of `is_closed`, shared by several results:
closed iff length at least 4 and first lon/lat exactly equal last lon/lat. -/
theorem is_closed_iff (coords : Chain) :
    is_closed coords = true ↔
      4 ≤ coords.length
      ∧ (coords.headD (0, 0)).1 = (coords.getLastD (0, 0)).1
      ∧ (coords.headD (0, 0)).2 = (coords.getLastD (0, 0)).2 := by
  unfold is_closed
  split_ifs with h
  · simp only [Bool.false_eq_true, false_iff]
    rintro ⟨h4, -⟩
    omega
  · simp only [Bool.and_eq_true, decide_eq_true_eq]
    exact ⟨fun ⟨h1, h2⟩ => ⟨by omega, h1, h2⟩, fun ⟨_, h1, h2⟩ => ⟨h1, h2⟩⟩

/-- C1 (counterexample): the claim "the Point-in-Polygon operation returns
false for every point exactly on the ring's boundary" is false on the code:
the point `[0, 1/2]` lies on the unit square ring's boundary (on the edge
from `[0,1]` to `[0,0]`), yet `point_in_polygon` returns `true` there. -/
theorem point_in_polygon_true_on_boundary_point :
    onRingBoundary (0, 1/2) unitSquare = true
    ∧ point_in_polygon ((0 : ℚ), 1/2) unitSquare = true := by
  constructor
  · norm_num [onRingBoundary, unitSquare, onSegment]
  · norm_num [point_in_polygon, unitSquare, crossing, List.range_succ]

/-- C1 (amended): for the unit square ring the ray-casting test returns true
exactly on the half-open square `0 ≤ lon < 1 ∧ 0 ≤ lat < 1`; hence true at
`[0.5, 0.5]`, false at `[2, 2]` and at every point outside the square, but
true — not false — at boundary points of the left and bottom edges. -/
theorem point_in_polygon_unitSquare_characterization :
    (∀ x y : ℚ, point_in_polygon (x, y) unitSquare = true
        ↔ (0 ≤ x ∧ x < 1 ∧ 0 ≤ y ∧ y < 1))
    ∧ point_in_polygon ((1 : ℚ)/2, (1 : ℚ)/2) unitSquare = true
    ∧ point_in_polygon ((2 : ℚ), (2 : ℚ)) unitSquare = false := by
  refine ⟨fun x y => ?_,
    by norm_num [point_in_polygon, unitSquare, crossing, List.range_succ],
    by norm_num [point_in_polygon, unitSquare, crossing, List.range_succ]⟩
  have hx : x < 0 → x < 1 := by intro h; linarith
  have hy : y < 0 → y < 1 := by intro h; linarith
  norm_num [point_in_polygon, unitSquare, crossing, List.range_succ]
  simp only [← not_lt]
  split_ifs with h <;> tauto

/-- C2: the Area Classifier decides by first-match precedence — `area=yes`
yields true, `area=no` yields false defeating all later rules, then the fixed
area-key set, then the fixed key=value exception table, otherwise false
(empty tags yield false); in particular `{"area":"no","building":"yes"}`
classifies false and `{"highway":"rest_area"}` true. -/
theorem is_area_first_match_precedence :
    (∀ tags : Tags, is_area tags = is_area_spec tags)
    ∧ is_area [("area", "no"), ("building", "yes")] = false
    ∧ is_area [("highway", "rest_area")] = true
    ∧ is_area [("building", "yes")] = true
    ∧ is_area [] = false := by
  refine ⟨fun tags => ?_, by decide, by decide, by decide, by decide⟩
  cases tags with
  | nil => decide
  | cons a l =>
    unfold is_area is_area_spec
    simp only [List.isEmpty_cons, if_false, Bool.false_eq_true]
    split_ifs <;> simp_all

/-- C6: the Ring Closure Test returns true iff the sequence has length ≥ 4
and its first pair's lon and lat are exactly equal to its last pair's; a
sequence of fewer than 4 points is not closed even when first = last. -/
theorem is_closed_spec :
    (∀ coords : Chain, is_closed coords = true ↔
      4 ≤ coords.length
      ∧ (coords.headD (0, 0)).1 = (coords.getLastD (0, 0)).1
      ∧ (coords.headD (0, 0)).2 = (coords.getLastD (0, 0)).2)
    ∧ is_closed [(0, 0), (1, 1), (0, 0)] = false :=
  ⟨is_closed_iff, by decide⟩

/-- C10: no division by zero — the ray-casting interpolation divisor
`yj - yi` is nonzero whenever the crossing condition guarding it holds, and
`ring_centroid` divides by the ring length only for nonempty rings (whose
length is nonzero), an empty ring returning `[0, 0]`. -/
theorem no_division_by_zero :
    (∀ y yi yj : ℚ, crossing y yi yj = true → yj - yi ≠ 0)
    ∧ ring_centroid [] = (0, 0)
    ∧ ∀ ring : Chain, ring ≠ [] →
        (ring.length : ℚ) ≠ 0
        ∧ ring_centroid ring
            = ((ring.map Prod.fst).sum / (ring.length : ℚ),
               (ring.map Prod.snd).sum / (ring.length : ℚ)) := by
  refine ⟨fun y yi yj h => ?_, by decide, fun ring hr => ⟨?_, ?_⟩⟩
  · unfold crossing at h
    by_cases h1 : yi > y <;> by_cases h2 : yj > y <;> simp [h1, h2] at h <;>
      intro hc <;> rw [sub_eq_zero] at hc <;> subst hc <;> exact absurd h1 (by tauto)
  · have : ring.length ≠ 0 := fun hc => hr (List.length_eq_zero.mp hc)
    exact_mod_cast Nat.cast_ne_zero.mpr this
  · unfold ring_centroid
    rw [if_neg hr]

/-- Witness for C10: instantiates the crossing-condition part at
`y = 0, yi = 1, yj = -1` and the centroid part at the two-point chain
`[[0,0],[2,2]]`. -/
theorem no_division_by_zero_witness :
    ((-1 : ℚ) - 1 ≠ 0)
    ∧ (((([((0 : ℚ), (0 : ℚ)), (2, 2)] : Chain).length : ℚ) ≠ 0)
       ∧ ring_centroid [((0 : ℚ), (0 : ℚ)), (2, 2)]
           = ((([((0 : ℚ), (0 : ℚ)), (2, 2)] : Chain).map Prod.fst).sum
                / ((([((0 : ℚ), (0 : ℚ)), (2, 2)] : Chain).length : ℚ)),
              (([((0 : ℚ), (0 : ℚ)), (2, 2)] : Chain).map Prod.snd).sum
                / ((([((0 : ℚ), (0 : ℚ)), (2, 2)] : Chain).length : ℚ)))) :=
  ⟨no_division_by_zero.1 0 1 (-1) (by decide),
   no_division_by_zero.2.2 [((0 : ℚ), (0 : ℚ)), (2, 2)] (by simp)⟩

/-- One splice step of `merge_ways_into_rings`: try to attach `candidate` to
the end or the start of `current`, in the source's comparison order
(reversing the candidate when its matching endpoint is on the same side). -/
def splice (current candidate : Chain) : Option Chain :=
  let c_start := candidate.headD (0, 0)
  let c_end := candidate.getLastD (0, 0)
  let cur_start := current.headD (0, 0)
  let cur_end := current.getLastD (0, 0)
  if cur_end = c_start then some (current ++ candidate.tail)
  else if cur_end = c_end then some (current ++ candidate.reverse.tail)
  else if cur_start = c_end then some (candidate ++ current.tail)
  else if cur_start = c_start then some (candidate.reverse ++ current.tail)
  else none

/-- Scan the worklist from the top for the first candidate that splices onto
`current`; return the grown chain and the worklist with that candidate
removed. -/
def attachOne (current : Chain) : List Chain → Option (Chain × List Chain)
  | [] => none
  | c :: rest =>
    match splice current c with
    | some cur2 => some (cur2, rest)
    | none =>
      match attachOne current rest with
      | some (cur2, rest2) => some (cur2, c :: rest2)
      | none => none

theorem attachOne_length {current : Chain} :
    ∀ {rem : List Chain} {p : Chain × List Chain},
      attachOne current rem = some p → p.2.length + 1 = rem.length := by
  intro rem
  induction rem with
  | nil => intro p h; simp [attachOne] at h
  | cons c rest ih =>
    intro p h
    unfold attachOne at h
    cases hs : splice current c with
    | some cur2 => rw [hs] at h; cases h; simp
    | none =>
      rw [hs] at h
      cases ha : attachOne current rest with
      | none => rw [ha] at h; cases h
      | some q =>
        rw [ha] at h
        cases h
        have := ih ha
        simp at this ⊢
        omega

/-- The inner `while changed` loop of `merge_ways_into_rings`: repeatedly
attach candidates (rescanning from the top of the worklist after every
splice) until no candidate attaches to either end of the chain.  `fuel`
bounds the number of splices; since every splice removes one worklist
element, the call sites' `fuel = remaining.length` always reaches the
loop's fixpoint (`growChain_fixpoint`). -/
def growChain (fuel : Nat) (current : Chain) (remaining : List Chain) :
    Chain × List Chain :=
  match fuel with
  | 0 => (current, remaining)
  | f + 1 =>
    match attachOne current remaining with
    | none => (current, remaining)
    | some p => growChain f p.1 p.2

/-- With fuel at least the worklist length, `growChain` runs until no
remaining sequence attaches to the chain, exactly as the source's
`while changed` loop. -/
theorem growChain_fixpoint :
    ∀ {fuel : Nat} {cur : Chain} {rem : List Chain}, rem.length ≤ fuel →
      attachOne (growChain fuel cur rem).1 (growChain fuel cur rem).2 = none := by
  intro fuel
  induction fuel with
  | zero =>
    intro cur rem h
    have : rem = [] := List.length_eq_zero.mp (Nat.le_zero.mp h)
    subst this
    simp [growChain, attachOne]
  | succ f ih =>
    intro cur rem h
    show attachOne (growChain (f + 1) cur rem).1 (growChain (f + 1) cur rem).2 = none
    unfold growChain
    cases ha : attachOne cur rem with
    | none => simpa using ha
    | some p =>
      have hl := attachOne_length ha
      exact ih (by omega)

theorem growChain_length_le :
    ∀ (fuel : Nat) (current : Chain) (remaining : List Chain),
      (growChain fuel current remaining).2.length ≤ remaining.length := by
  intro fuel
  induction fuel with
  | zero => intro cur rem; simp [growChain]
  | succ f ih =>
    intro cur rem
    unfold growChain
    cases ha : attachOne cur rem with
    | none => simp
    | some p =>
      have hl := attachOne_length ha
      have h2 := ih p.1 p.2
      show (growChain f p.1 p.2).2.length ≤ rem.length
      omega

/-- The outer worklist loop of `merge_ways_into_rings`: pop the first
remaining way, grow it into a maximal chain, and emit it as a closed ring or
an unclosed leftover chain.  `fuel` bounds the number of iterations; each
iteration consumes at least the popped element, so the call site's
`fuel = remaining.length` is always sufficient. -/
def mergeLoop (fuel : Nat) (remaining : List Chain) : List Chain × List Chain :=
  match fuel, remaining with
  | _, [] => ([], [])
  | 0, _ :: _ => ([], [])
  | f + 1, w :: rest =>
    let g := growChain rest.length w rest
    let r := mergeLoop f g.2
    if is_closed g.1 then (g.1 :: r.1, r.2) else (r.1, g.1 :: r.2)

/-- `merge_ways_into_rings`: stitch way coordinate arrays into closed rings
plus unclosed leftover chains, discarding inputs of fewer than 2 points. -/
def merge_ways_into_rings (way_geometries : List Chain) : List Chain × List Chain :=
  if way_geometries = [] then ([], [])
  else
    let remaining := way_geometries.filter fun wg => 2 ≤ wg.length
    mergeLoop remaining.length remaining

theorem headD_mem {α : Type _} {l : List α} (d : α) (h : l ≠ []) : l.headD d ∈ l := by
  cases l with
  | nil => exact absurd rfl h
  | cons a t => simp

theorem getLastD_mem {α : Type _} {l : List α} (d : α) (h : l ≠ []) : l.getLastD d ∈ l := by
  rcases l.eq_nil_or_concat with rfl | ⟨L, b, rfl⟩
  · exact absurd rfl h
  · simp [List.getLastD_concat]

/-- Multiset of all coordinate points across a list of chains. -/
def pts (cs : List Chain) : Multiset Coord := (cs.flatten : Multiset Coord)

theorem pts_nil : pts [] = 0 := rfl

theorem pts_cons (c : Chain) (cs : List Chain) : pts (c :: cs) = ↑c + pts cs := by
  simp [pts, ← Multiset.coe_add]

theorem pts_append (a b : List Chain) : pts (a ++ b) = pts a + pts b := by
  simp [pts, ← Multiset.coe_add]

/-- A successful splice consumes exactly one copy of the shared junction
point: the new chain's points plus that junction point are exactly the two
chains' points, the junction point lies on both chains, and the current
chain's point multiset only grows. -/
theorem splice_pts {cur cand nw : Chain} (hc : cur ≠ []) (hd : cand ≠ [])
    (h : splice cur cand = some nw) :
    ∃ p : Coord, p ∈ cur ∧ p ∈ cand
      ∧ (↑nw + {p} : Multiset Coord) = ↑cur + ↑cand
      ∧ nw ≠ [] ∧ (↑cur : Multiset Coord) ≤ ↑nw := by
  unfold splice at h
  dsimp only at h
  split_ifs at h with h1 h2 h3 h4 <;> injection h with h <;> subst h
  · -- attach candidate to end of current
    obtain ⟨a, t, rfl⟩ : ∃ a t, cand = a :: t := by
      cases cand with
      | nil => exact absurd rfl hd
      | cons a t => exact ⟨a, t, rfl⟩
    refine ⟨a, ?_, by simp, ?_, by simp [hc], ?_⟩
    · rw [show a = cur.getLastD (0, 0) by simpa using h1.symm]
      exact getLastD_mem _ hc
    · simp only [List.tail_cons, ← Multiset.coe_add, ← Multiset.cons_coe,
        ← Multiset.singleton_add]
      abel
    · simp only [← Multiset.coe_add]
      exact Multiset.le_add_right _ _
  · -- attach reversed candidate to end of current
    obtain ⟨L, b, rfl⟩ : ∃ L b, cand = L ++ [b] := by
      rcases cand.eq_nil_or_concat with rfl | ⟨L, b, hL⟩
      · exact absurd rfl hd
      · exact ⟨L, b, by rw [hL, List.concat_eq_append]⟩
    have hrev : (L ++ [b]).reverse.tail = L.reverse := by
      simp [List.reverse_append]
    refine ⟨b, ?_, by simp, ?_, by simp [hc], ?_⟩
    · rw [show b = cur.getLastD (0, 0) by simpa [List.getLastD_concat] using h2.symm]
      exact getLastD_mem _ hc
    · rw [hrev]
      simp only [← Multiset.coe_add, Multiset.coe_reverse, ← Multiset.cons_coe,
        ← Multiset.singleton_add]
      abel
    · rw [hrev]
      simp only [← Multiset.coe_add]
      exact Multiset.le_add_right _ _
  · -- attach candidate to start of current
    obtain ⟨a, t, rfl⟩ : ∃ a t, cur = a :: t := by
      cases cur with
      | nil => exact absurd rfl hc
      | cons a t => exact ⟨a, t, rfl⟩
    have ha : a ∈ cand := by
      rw [show a = cand.getLastD (0, 0) by simpa using h3]
      exact getLastD_mem _ hd
    refine ⟨a, by simp, ha, ?_, by simp [hd], ?_⟩
    · simp only [List.tail_cons, ← Multiset.coe_add, ← Multiset.cons_coe,
        ← Multiset.singleton_add]
      abel
    · simp only [← Multiset.coe_add, ← Multiset.cons_coe, ← Multiset.singleton_add]
      exact add_le_add_right (Multiset.singleton_le.mpr (Multiset.mem_coe.mpr ha)) _
  · -- attach reversed candidate to start of current
    obtain ⟨a, t, rfl⟩ : ∃ a t, cur = a :: t := by
      cases cur with
      | nil => exact absurd rfl hc
      | cons a t => exact ⟨a, t, rfl⟩
    have ha : a ∈ cand := by
      rw [show a = cand.headD (0, 0) by simpa using h4]
      exact headD_mem _ hd
    refine ⟨a, by simp, ha, ?_, by simp [hd], ?_⟩
    · simp only [List.tail_cons, ← Multiset.coe_add, Multiset.coe_reverse,
        ← Multiset.cons_coe, ← Multiset.singleton_add]
      abel
    · simp only [← Multiset.coe_add, Multiset.coe_reverse, ← Multiset.cons_coe,
        ← Multiset.singleton_add]
      exact add_le_add_right (Multiset.singleton_le.mpr (Multiset.mem_coe.mpr ha)) _

/-- A successful worklist scan removes exactly one candidate and splices it:
points are conserved up to one junction point that remains on the grown
chain. -/
theorem junction_rearrange {a cur cnd rest : Multiset Coord} {p : Coord}
    (h : a + {p} = cur + cnd) : a + rest + {p} = cur + (cnd + rest) := by
  rw [show a + rest + {p} = (a + {p}) + rest from by abel, h]
  abel

theorem attachOne_pts {cur : Chain} (hc : cur ≠ []) :
    ∀ {rem : List Chain} {c2 : Chain} {rem2 : List Chain},
      (∀ c ∈ rem, c ≠ []) → attachOne cur rem = some (c2, rem2) →
      ∃ p : Coord, p ∈ cur
        ∧ (↑c2 + pts rem2 + {p} : Multiset Coord) = ↑cur + pts rem
        ∧ c2 ≠ [] ∧ (↑cur : Multiset Coord) ≤ ↑c2 ∧ ∀ c ∈ rem2, c ∈ rem := by
  intro rem
  induction rem with
  | nil => intro c2 rem2 _ h; simp [attachOne] at h
  | cons c rest ih =>
    intro c2 rem2 hne h
    unfold attachOne at h
    cases hs : splice cur c with
    | some cur2 =>
      rw [hs] at h
      cases h
      obtain ⟨p, hp1, hp2, hp3, hp4, hp5⟩ :=
        splice_pts hc (hne c (by simp)) hs
      refine ⟨p, hp1, ?_, hp4, hp5, fun x hx => by simp [hx]⟩
      rw [pts_cons]
      exact junction_rearrange hp3
    | none =>
      rw [hs] at h
      cases ha : attachOne cur rest with
      | none => rw [ha] at h; cases h
      | some q =>
        rw [ha] at h
        cases h
        obtain ⟨p, hp1, hp2, hp3, hp4, hp5⟩ :=
          ih (fun x hx => hne x (by simp [hx])) ha
        refine ⟨p, hp1, ?_, hp3, hp4, ?_⟩
        · rw [pts_cons, pts_cons,
            show (↑q.1 + (↑c + pts q.2) + {p} : Multiset Coord)
              = ↑c + (↑q.1 + pts q.2 + {p}) by abel, hp2]
          abel
        · intro x hx
          rcases List.mem_cons.mp hx with rfl | hx2
          · simp
          · simp [hp5 x hx2]

/-- The grown chain plus the junction points dropped at each splice account
exactly for the starting chain and the consumed worklist entries; every
dropped junction point still appears on the grown chain. -/
theorem growChain_pts :
    ∀ (fuel : Nat) {cur : Chain} {rem : List Chain}, cur ≠ [] →
      (∀ c ∈ rem, c ≠ []) →
      ∃ junk : Multiset Coord,
        (↑(growChain fuel cur rem).1 + pts (growChain fuel cur rem).2 + junk
            : Multiset Coord) = ↑cur + pts rem
        ∧ junk.card + (growChain fuel cur rem).2.length = rem.length
        ∧ (∀ p ∈ junk, p ∈ (growChain fuel cur rem).1)
        ∧ (growChain fuel cur rem).1 ≠ []
        ∧ (↑cur : Multiset Coord) ≤ ↑(growChain fuel cur rem).1
        ∧ ∀ c ∈ (growChain fuel cur rem).2, c ∈ rem := by
  intro fuel
  induction fuel with
  | zero =>
    intro cur rem hc _
    have hg : growChain 0 cur rem = (cur, rem) := rfl
    rw [hg]
    exact ⟨0, by simp, by simp, by simp, hc, le_refl _, fun c h => h⟩
  | succ f ih =>
    intro cur rem hc hne
    cases ha : attachOne cur rem with
    | none =>
      have hg : growChain (f + 1) cur rem = (cur, rem) := by
        simp [growChain, ha]
      rw [hg]
      exact ⟨0, by simp, by simp, by simp, hc, le_refl _, fun c h => h⟩
    | some q =>
      have hg : growChain (f + 1) cur rem = growChain f q.1 q.2 := by
        simp [growChain, ha]
      rw [hg]
      obtain ⟨p, hp1, hp2, hp3, hp4, hp5⟩ := attachOne_pts hc hne ha
      have hq2 : ∀ c ∈ q.2, c ≠ [] := fun c hx => hne c (hp5 c hx)
      obtain ⟨junk, hj1, hj2, hj3, hj4, hj5, hj6⟩ := ih hp3 hq2
      have hlen := attachOne_length ha
      refine ⟨junk + {p}, ?_, ?_, ?_, hj4, le_trans hp4 hj5, ?_⟩
      · rw [show (↑(growChain f q.1 q.2).1 + pts (growChain f q.1 q.2).2
              + (junk + {p}) : Multiset Coord)
            = (↑(growChain f q.1 q.2).1 + pts (growChain f q.1 q.2).2 + junk)
              + {p} by abel, hj1,
          show (↑q.1 + pts q.2 + {p} : Multiset Coord)
            = ↑q.1 + pts q.2 + {p} from rfl, hp2]
      · simp only [Multiset.card_add, Multiset.card_singleton]
        omega
      · intro x hx
        rcases Multiset.mem_add.mp hx with hx1 | hx1
        · exact hj3 x hx1
        · have hxp : x = p := by simpa using hx1
          subst hxp
          exact Multiset.mem_coe.mp
            (Multiset.mem_of_le (le_trans hp4 hj5) (Multiset.mem_coe.mpr hp1))
      · intro c hcm
        exact hp5 c (hj6 c hcm)

/-- Worklist-loop conservation: the emitted chains plus the junction points
dropped at splices account exactly for the input sequences, one junction
point per consumed sequence beyond the emitted chains, and every dropped
junction point still appears among the output chains' points. -/
theorem mergeLoop_pts :
    ∀ (fuel : Nat) (rem : List Chain), rem.length ≤ fuel → (∀ c ∈ rem, c ≠ []) →
      ∃ junk : Multiset Coord,
        pts ((mergeLoop fuel rem).1 ++ (mergeLoop fuel rem).2) + junk = pts rem
        ∧ junk.card + (mergeLoop fuel rem).1.length
            + (mergeLoop fuel rem).2.length = rem.length
        ∧ ∀ p ∈ junk, p ∈ pts ((mergeLoop fuel rem).1 ++ (mergeLoop fuel rem).2) := by
  intro fuel
  induction fuel with
  | zero =>
    intro rem hf _
    have hnil : rem = [] := List.length_eq_zero.mp (Nat.le_zero.mp hf)
    subst hnil
    exact ⟨0, by simp [mergeLoop, pts_nil], by simp [mergeLoop], by simp⟩
  | succ f ih =>
    intro rem hf hne
    match rem with
    | [] => exact ⟨0, by simp [mergeLoop, pts_nil], by simp [mergeLoop], by simp⟩
    | w :: rest =>
      obtain ⟨junkg, hg1, hg2, hg3, hg4, hg5, hg6⟩ :=
        growChain_pts rest.length (hne w (by simp)) (fun c hc => hne c (List.mem_cons_of_mem w hc))
      set g := growChain rest.length w rest with hgdef
      have hglen : g.2.length ≤ rest.length := growChain_length_le _ _ _
      have hfle : g.2.length ≤ f := by
        simp only [List.length_cons] at hf
        omega
      obtain ⟨junk2, h21, h22, h23⟩ :=
        ih g.2 hfle (fun c hc => hne c (List.mem_cons_of_mem w (hg6 c hc)))
      have hkey : (↑g.1 + pts ((mergeLoop f g.2).1 ++ (mergeLoop f g.2).2)
            : Multiset Coord) + (junk2 + junkg) = pts (w :: rest) := by
        rw [show (↑g.1 + pts ((mergeLoop f g.2).1 ++ (mergeLoop f g.2).2)
              : Multiset Coord) + (junk2 + junkg)
            = ↑g.1 + (pts ((mergeLoop f g.2).1 ++ (mergeLoop f g.2).2) + junk2)
              + junkg from by abel, h21, hg1, pts_cons]
      have hcard : (junk2 + junkg).card + ((mergeLoop f g.2).1.length
            + (mergeLoop f g.2).2.length + 1) = (w :: rest).length := by
        simp only [Multiset.card_add, List.length_cons]
        omega
      have hmem : ∀ p ∈ junk2 + junkg,
          p ∈ (↑g.1 + pts ((mergeLoop f g.2).1 ++ (mergeLoop f g.2).2)
            : Multiset Coord) := by
        intro p hp
        rcases Multiset.mem_add.mp hp with hp2 | hp2
        · exact Multiset.mem_add.mpr (Or.inr (h23 p hp2))
        · exact Multiset.mem_add.mpr (Or.inl (Multiset.mem_coe.mpr (hg3 p hp2)))
      by_cases hcl : is_closed g.1 = true
      · have hml : mergeLoop (f + 1) (w :: rest)
            = (g.1 :: (mergeLoop f g.2).1, (mergeLoop f g.2).2) := by
          simp only [mergeLoop, ← hgdef, hcl, if_true]
        rw [hml]
        refine ⟨junk2 + junkg, ?_, ?_, ?_⟩
        · rw [show pts (g.1 :: (mergeLoop f g.2).1 ++ (mergeLoop f g.2).2)
              = ↑g.1 + pts ((mergeLoop f g.2).1 ++ (mergeLoop f g.2).2) from
              by rw [List.cons_append, pts_cons]]
          exact hkey
        · simp only [Multiset.card_add, List.length_cons] at hcard ⊢
          omega
        · intro p hp
          have := hmem p hp
          rw [show pts (g.1 :: (mergeLoop f g.2).1 ++ (mergeLoop f g.2).2)
              = ↑g.1 + pts ((mergeLoop f g.2).1 ++ (mergeLoop f g.2).2) from
              by rw [List.cons_append, pts_cons]]
          exact this
      · have hml : mergeLoop (f + 1) (w :: rest)
            = ((mergeLoop f g.2).1, g.1 :: (mergeLoop f g.2).2) := by
          simp only [mergeLoop, ← hgdef]
          rw [if_neg hcl]
        rw [hml]
        have hshape : pts ((mergeLoop f g.2).1 ++ g.1 :: (mergeLoop f g.2).2)
            = ↑g.1 + pts ((mergeLoop f g.2).1 ++ (mergeLoop f g.2).2) := by
          rw [pts_append, pts_cons, pts_append]
          abel
        refine ⟨junk2 + junkg, ?_, ?_, ?_⟩
        · rw [hshape]
          exact hkey
        · simp only [Multiset.card_add, List.length_cons] at hcard ⊢
          omega
        · intro p hp
          rw [hshape]
          exact hmem p hp

/-- C3: Way Stitcher conservation — for inputs each of length ≥ 2, the two
output lists (closed rings and open chains) consume every input sequence
exactly once: the output chains' point multiset plus one shared junction
point per splice equals the input point multiset, the number of splices is
exactly the number of inputs minus the number of output chains, every
dropped junction point still appears among the output points, and the set
of coordinate points is preserved exactly (values never altered). -/
theorem merge_ways_conservation (ways : List Chain)
    (h : ∀ c ∈ ways, 2 ≤ c.length) :
    ∃ junk : Multiset Coord,
      pts ((merge_ways_into_rings ways).1 ++ (merge_ways_into_rings ways).2)
          + junk = pts ways
      ∧ junk.card + (merge_ways_into_rings ways).1.length
          + (merge_ways_into_rings ways).2.length = ways.length
      ∧ (∀ p ∈ junk, p ∈ pts ((merge_ways_into_rings ways).1
            ++ (merge_ways_into_rings ways).2))
      ∧ ∀ p : Coord, p ∈ pts ways ↔ p ∈ pts ((merge_ways_into_rings ways).1
            ++ (merge_ways_into_rings ways).2) := by
  by_cases hw : ways = []
  · subst hw
    exact ⟨0, by simp [merge_ways_into_rings, pts_nil],
      by simp [merge_ways_into_rings], by simp,
      by simp [merge_ways_into_rings, pts]⟩
  · have hfilter : ways.filter (fun wg => decide (2 ≤ wg.length)) = ways :=
      List.filter_eq_self.mpr (fun c hc => decide_eq_true (h c hc))
    have hm : merge_ways_into_rings ways = mergeLoop ways.length ways := by
      unfold merge_ways_into_rings
      rw [if_neg hw]
      simp only [hfilter]
    rw [hm]
    obtain ⟨junk, h1, h2, h3⟩ := mergeLoop_pts ways.length ways (le_refl _)
      (fun c hc => by
        have h2 := h c hc
        intro hnil
        subst hnil
        simp at h2)
    refine ⟨junk, h1, h2, h3, fun p => ?_⟩
    constructor
    · intro hp
      rw [← h1] at hp
      rcases Multiset.mem_add.mp hp with h4 | h4
      · exact h4
      · exact h3 p h4
    · intro hp
      rw [← h1]
      exact Multiset.mem_add.mpr (Or.inl hp)

/-- Witness for C3 at the §8 example input: two ways `[[0,0],[1,0]]` and
`[[1,0],[1,1],[0,1],[0,0]]`, both of length ≥ 2. -/
theorem merge_ways_conservation_witness :
    (∀ c ∈ ([[(0, 0), (1, 0)], [(1, 0), (1, 1), (0, 1), (0, 0)]] : List Chain),
      2 ≤ c.length)
    ∧ ∃ junk : Multiset Coord,
      pts ((merge_ways_into_rings
              [[(0, 0), (1, 0)], [(1, 0), (1, 1), (0, 1), (0, 0)]]).1
            ++ (merge_ways_into_rings
              [[(0, 0), (1, 0)], [(1, 0), (1, 1), (0, 1), (0, 0)]]).2)
          + junk
        = pts [[(0, 0), (1, 0)], [(1, 0), (1, 1), (0, 1), (0, 0)]]
      ∧ junk.card + (merge_ways_into_rings
            [[(0, 0), (1, 0)], [(1, 0), (1, 1), (0, 1), (0, 0)]]).1.length
          + (merge_ways_into_rings
            [[(0, 0), (1, 0)], [(1, 0), (1, 1), (0, 1), (0, 0)]]).2.length = 2
      ∧ (∀ p ∈ junk, p ∈ pts ((merge_ways_into_rings
              [[(0, 0), (1, 0)], [(1, 0), (1, 1), (0, 1), (0, 0)]]).1
            ++ (merge_ways_into_rings
              [[(0, 0), (1, 0)], [(1, 0), (1, 1), (0, 1), (0, 0)]]).2))
      ∧ ∀ p : Coord,
          p ∈ pts [[(0, 0), (1, 0)], [(1, 0), (1, 1), (0, 1), (0, 0)]]
            ↔ p ∈ pts ((merge_ways_into_rings
                  [[(0, 0), (1, 0)], [(1, 0), (1, 1), (0, 1), (0, 0)]]).1
                ++ (merge_ways_into_rings
                  [[(0, 0), (1, 0)], [(1, 0), (1, 1), (0, 1), (0, 0)]]).2) :=
  ⟨by decide, merge_ways_conservation _ (by decide)⟩

/-- GeoJSON geometry variants produced by the converter. -/
inductive Geometry where
  | point (c : Coord)
  | lineString (cs : Chain)
  | polygon (rings : List Chain)
  | multiLineString (ls : List Chain)
  | multiPolygon (ps : List (List Chain))
deriving DecidableEq, Repr

/-- An Overpass relation member: type, optional role (`defaulting to outer`),
optional geometry array. -/
structure Member where
  type : String
  role : Option String
  geometry : Option (List (Option Pt))
deriving DecidableEq, Repr

/-- The member partition loop of `build_multipolygon`: collect way members'
extracted coordinates (≥ 2 points, skipping members without usable geometry)
into outer and inner lists by role, `inner` versus anything else. -/
def collectWays (members : List Member) : List Chain × List Chain :=
  members.foldr
    (fun member acc =>
      if member.type = "way" then
        match member.geometry with
        | none => acc
        | some [] => acc
        | some geom =>
          let coords := coords_from_geometry geom
          if 2 ≤ coords.length then
            if member.role.getD "outer" = "inner" then (acc.1, coords :: acc.2)
            else (coords :: acc.1, acc.2)
          else acc
      else acc)
    ([], [])

/-- The inner scan of the hole-assignment loop: append `inner` to the first
polygon group whose outer ring (`polygon[0]`) contains `c`, or report
failure. -/
def assignFirst (c : Coord) (inner : Chain) : List (List Chain) → Option (List (List Chain))
  | [] => none
  | poly :: ps =>
    if point_in_polygon c (poly.headD []) then some ((poly ++ [inner]) :: ps)
    else
      match assignFirst c inner ps with
      | some ps2 => some (poly :: ps2)
      | none => none

/-- One iteration of the hole-assignment loop of `build_multipolygon`:
assign `inner` as a hole of the first containing outer ring, defaulting to
the first polygon group when the containment test fails everywhere. -/
def assignInner (polygons : List (List Chain)) (inner : Chain) : List (List Chain) :=
  match assignFirst (ring_centroid inner) inner polygons with
  | some ps => ps
  | none =>
    match polygons with
    | [] => []
    | p :: ps => (p ++ [inner]) :: ps

/-- The full hole-assignment loop: fold `assignInner` over the inner rings
in production order. -/
def assignAll (polygons : List (List Chain)) (inners : List Chain) : List (List Chain) :=
  inners.foldl assignInner polygons

/-- Modelled from the spec (§4.5 step 5), for comparison with `assignFirst`:
append the hole to the first group whose outer ring contains the centroid,
leaving all other groups unchanged. -/
def addHoleToFirstContaining (c : Coord) (a : Chain) : List (List Chain) → List (List Chain)
  | [] => []
  | g :: gs =>
    if point_in_polygon c (g.headD []) then (g ++ [a]) :: gs
    else g :: addHoleToFirstContaining c a gs

/-- Modelled from the spec (§4.5 step 5), for comparison with `assignInner`:
a hole goes to the first outer ring containing its centroid, else to the
first polygon group. -/
def assignInner_spec (polygons : List (List Chain)) (inner : Chain) : List (List Chain) :=
  let c := ring_centroid inner
  if polygons.any (fun g => point_in_polygon c (g.headD [])) then
    addHoleToFirstContaining c inner polygons
  else
    match polygons with
    | [] => []
    | p :: ps => (p ++ [inner]) :: ps

/-- `build_multipolygon`: partition members by role, stitch outers and
inners, fall back to line geometry when no outer ring closes, otherwise
assign each inner ring as a hole of an outer ring and emit a Polygon or
MultiPolygon. -/
def build_multipolygon (members : List Member) : Option Geometry :=
  let outer_ways := (collectWays members).1
  let inner_ways := (collectWays members).2
  let outer_m := merge_ways_into_rings outer_ways
  let inner_m := merge_ways_into_rings inner_ways
  let outer_rings := outer_m.1
  let outer_unclosed := outer_m.2
  let inner_rings := inner_m.1
  if outer_rings = [] then
    if outer_unclosed ≠ [] then
      if outer_unclosed.length = 1 then
        some (Geometry.lineString (outer_unclosed.headD []))
      else some (Geometry.multiLineString outer_unclosed)
    else none
  else
    let polygons := assignAll (outer_rings.map fun r => [r]) inner_rings
    if polygons.length = 1 then some (Geometry.polygon (polygons.headD []))
    else some (Geometry.multiPolygon polygons)

theorem assignFirst_spec (c : Coord) (a : Chain) :
    ∀ gs : List (List Chain),
      assignFirst c a gs
        = if gs.any (fun g => point_in_polygon c (g.headD []))
          then some (addHoleToFirstContaining c a gs) else none := by
  intro gs
  induction gs with
  | nil => simp [assignFirst, addHoleToFirstContaining]
  | cons g rest ih =>
    unfold assignFirst addHoleToFirstContaining
    by_cases h : point_in_polygon c (g.headD []) = true
    · have hany : ((g :: rest).any fun g => point_in_polygon c (g.headD []))
          = true := by
        rw [List.any_cons, h]
        simp
      rw [if_pos h, if_pos hany, if_pos h]
    · by_cases h2 : (rest.any fun g => point_in_polygon c (g.headD [])) = true
      · have hany : ((g :: rest).any fun g => point_in_polygon c (g.headD []))
            = true := by
          rw [List.any_cons, h2]
          simp
        rw [if_neg h, ih, if_pos h2, if_pos hany, if_neg h]
      · have hg0 : point_in_polygon c (g.headD []) = false :=
          Bool.eq_false_iff.mpr h
        have hr0 : (rest.any fun g => point_in_polygon c (g.headD [])) = false :=
          Bool.eq_false_iff.mpr h2
        have hany : ¬ ((g :: rest).any fun g => point_in_polygon c (g.headD []))
            = true := by
          rw [List.any_cons, hg0, hr0]
          simp
        rw [if_neg h, ih, if_neg h2, if_neg hany]

/-- C4 step lemma (refinement): `assignInner` implements exactly the spec's
rule — append the hole to the first containing outer ring's group, else to
the first polygon group. -/
theorem assignInner_eq_spec (polygons : List (List Chain)) (inner : Chain) :
    assignInner polygons inner = assignInner_spec polygons inner := by
  unfold assignInner assignInner_spec
  rw [assignFirst_spec]
  by_cases h : polygons.any
      (fun g => point_in_polygon (ring_centroid inner) (g.headD [])) = true
  · rw [if_pos h, if_pos h]
  · rw [if_neg h, if_neg h]

theorem headD_append_of_ne_nil {g : List Chain} (hg : g ≠ []) (a : Chain) :
    (g ++ [a]).headD [] = g.headD [] := by
  cases g with
  | nil => exact absurd rfl hg
  | cons x t => simp

theorem tail_append_of_ne_nil {g : List Chain} (hg : g ≠ []) (a : Chain) :
    (g ++ [a]).tail = g.tail ++ [a] := by
  cases g with
  | nil => exact absurd rfl hg
  | cons x t => simp

theorem addHole_shape (c : Coord) (a : Chain) :
    ∀ gs : List (List Chain), (∀ g ∈ gs, g ≠ []) →
      gs.any (fun g => point_in_polygon c (g.headD [])) = true →
      (addHoleToFirstContaining c a gs).map (fun g => g.headD [])
          = gs.map (fun g => g.headD [])
      ∧ (addHoleToFirstContaining c a gs).length = gs.length
      ∧ (↑((addHoleToFirstContaining c a gs).map List.tail).flatten
          : Multiset Chain) = {a} + ↑(gs.map List.tail).flatten
      ∧ ∀ g ∈ addHoleToFirstContaining c a gs, g ≠ [] := by
  intro gs
  induction gs with
  | nil => intro _ h; simp at h
  | cons g rest ih =>
    intro hel h
    have hg : g ≠ [] := hel g (by simp)
    unfold addHoleToFirstContaining
    by_cases hp : point_in_polygon c (g.headD []) = true
    · rw [if_pos hp]
      refine ⟨by rw [List.map_cons, List.map_cons, headD_append_of_ne_nil hg],
        by simp, ?_, ?_⟩
      · simp only [List.map_cons, List.flatten_cons, tail_append_of_ne_nil hg,
          ← Multiset.coe_add, Multiset.coe_singleton, List.append_assoc]
        abel
      · intro x hx
        rcases List.mem_cons.mp hx with rfl | hx2
        · simp [hg]
        · exact hel x (by simp [hx2])
    · rw [if_neg hp]
      have h2 : rest.any (fun g => point_in_polygon c (g.headD [])) = true := by
        simp only [List.any_cons, Bool.or_eq_true] at h
        rcases h with h | h
        · exact absurd h hp
        · exact h
      obtain ⟨i1, i2, i3, i4⟩ := ih (fun x hx => hel x (by simp [hx])) h2
      refine ⟨by rw [List.map_cons, List.map_cons, i1], by simp [i2], ?_, ?_⟩
      · simp only [List.map_cons, List.flatten_cons, ← Multiset.coe_add, i3]
        abel
      · intro x hx
        rcases List.mem_cons.mp hx with rfl | hx2
        · exact hg
        · exact i4 x hx2

/-- Shape invariants of one hole assignment: group heads (the outer rings)
and the group count are unchanged, the multiset of all holes gains exactly
the assigned inner ring, and groups stay nonempty. -/
theorem assignInner_shape (polygons : List (List Chain)) (inner : Chain)
    (hne : polygons ≠ []) (hel : ∀ g ∈ polygons, g ≠ []) :
    (assignInner polygons inner).map (fun g => g.headD [])
        = polygons.map (fun g => g.headD [])
    ∧ (assignInner polygons inner).length = polygons.length
    ∧ (↑((assignInner polygons inner).map List.tail).flatten : Multiset Chain)
        = {inner} + ↑(polygons.map List.tail).flatten
    ∧ ∀ g ∈ assignInner polygons inner, g ≠ [] := by
  rw [assignInner_eq_spec]
  unfold assignInner_spec
  by_cases h : polygons.any
      (fun g => point_in_polygon (ring_centroid inner) (g.headD [])) = true
  · rw [if_pos h]
    exact addHole_shape _ _ polygons hel h
  · rw [if_neg h]
    cases polygons with
    | nil => exact absurd rfl hne
    | cons p ps =>
      have hp : p ≠ [] := hel p (by simp)
      refine ⟨by rw [List.map_cons, List.map_cons, headD_append_of_ne_nil hp],
        by simp, ?_, ?_⟩
      · simp only [List.map_cons, List.flatten_cons, tail_append_of_ne_nil hp,
          ← Multiset.coe_add, Multiset.coe_singleton, List.append_assoc]
        abel
      · intro x hx
        rcases List.mem_cons.mp hx with rfl | hx2
        · simp [hp]
        · exact hel x (by simp [hx2])

/-- Shape invariants of the whole hole-assignment loop. -/
theorem assignAll_shape :
    ∀ (inners : List Chain) (polygons : List (List Chain)),
      polygons ≠ [] → (∀ g ∈ polygons, g ≠ []) →
      (assignAll polygons inners).map (fun g => g.headD [])
          = polygons.map (fun g => g.headD [])
      ∧ (assignAll polygons inners).length = polygons.length
      ∧ (↑((assignAll polygons inners).map List.tail).flatten : Multiset Chain)
          = ↑inners + ↑(polygons.map List.tail).flatten
      ∧ ∀ g ∈ assignAll polygons inners, g ≠ [] := by
  intro inners
  induction inners with
  | nil => intro polygons _ hel; exact ⟨rfl, rfl, by simp [assignAll], hel⟩
  | cons a rest ih =>
    intro polygons hne hel
    obtain ⟨s1, s2, s3, s4⟩ := assignInner_shape polygons a hne hel
    have hne2 : assignInner polygons a ≠ [] := by
      intro hc
      rw [hc] at s2
      exact hne (List.length_eq_zero.mp s2.symm)
    obtain ⟨i1, i2, i3, i4⟩ := ih (assignInner polygons a) hne2 s4
    have hall : assignAll polygons (a :: rest)
        = assignAll (assignInner polygons a) rest := rfl
    rw [hall]
    refine ⟨i1.trans s1, i2.trans s2, ?_, i4⟩
    rw [i3, s3, ← Multiset.cons_coe, ← Multiset.singleton_add]
    abel

theorem tails_of_seeds (outs : List Chain) :
    ((outs.map fun r => ([r] : List Chain)).map List.tail).flatten = [] := by
  induction outs with
  | nil => rfl
  | cons a rest ih => simp [ih]

/-- C4: whenever at least one closed outer ring exists, the hole-assignment
loop appends every stitched inner ring as a hole to exactly one polygon
group — the first group whose outer ring contains the inner ring's centroid
under the ray-casting test, else the first group — and it neither drops an
inner ring nor creates or destroys a polygon group: group count and the
outer ring heading each group (in production order) are unchanged, and the
multiset of all holes is exactly the inner rings. -/
theorem inner_ring_assignment (outs inners : List Chain) (h : outs ≠ []) :
    (∀ polygons inner,
        assignInner polygons inner = assignInner_spec polygons inner)
    ∧ (assignAll (outs.map fun r => [r]) inners).length = outs.length
    ∧ (assignAll (outs.map fun r => [r]) inners).map (fun g => g.headD [])
        = outs
    ∧ (↑((assignAll (outs.map fun r => [r]) inners).map List.tail).flatten
        : Multiset Chain) = ↑inners := by
  have hne : (outs.map fun r => ([r] : List Chain)) ≠ [] := by
    simp [h]
  have hel : ∀ g ∈ (outs.map fun r => ([r] : List Chain)), g ≠ [] := by
    intro g hg
    obtain ⟨r, _, rfl⟩ := List.mem_map.mp hg
    simp
  obtain ⟨s1, s2, s3, s4⟩ :=
    assignAll_shape inners (outs.map fun r => [r]) hne hel
  refine ⟨assignInner_eq_spec, ?_, ?_, ?_⟩
  · rw [s2, List.length_map]
  · rw [s1, List.map_map]
    have hcomp : ((fun (g : List Chain) => g.headD []) ∘ fun r => ([r] : List Chain))
        = id := by
      funext r
      rfl
    rw [hcomp, List.map_id]
  · rw [s3, tails_of_seeds]
    simp

/-- Witness for C4 at `outs = [unitSquare]`, `inners = []`. -/
theorem inner_ring_assignment_witness :
    (([unitSquare] : List Chain) ≠ [])
    ∧ ((∀ polygons inner,
          assignInner polygons inner = assignInner_spec polygons inner)
      ∧ (assignAll (([unitSquare] : List Chain).map fun r => [r]) []).length
          = ([unitSquare] : List Chain).length
      ∧ (assignAll (([unitSquare] : List Chain).map fun r => [r]) []).map
            (fun g => g.headD []) = [unitSquare]
      ∧ (↑((assignAll (([unitSquare] : List Chain).map fun r => [r]) []).map
            List.tail).flatten : Multiset Chain) = ↑([] : List Chain)) :=
  ⟨by simp, inner_ring_assignment [unitSquare] [] (by simp)⟩

/-- C5: when no outer ring closes after stitching, `build_multipolygon`
returns a LineString over the single leftover open chain, a MultiLineString
over all leftover chains when there are several, and no geometry when there
are no leftovers either; it is total on such degenerate input. -/
theorem no_closed_outer_fallback (members : List Member)
    (h : (merge_ways_into_rings (collectWays members).1).1 = []) :
    build_multipolygon members
      = match (merge_ways_into_rings (collectWays members).1).2 with
        | [] => none
        | [c] => some (Geometry.lineString c)
        | cs => some (Geometry.multiLineString cs) := by
  unfold build_multipolygon
  dsimp only
  rw [if_pos h]
  cases hM : (merge_ways_into_rings (collectWays members).1).2 with
  | nil => simp
  | cons c rest =>
    cases rest with
    | nil => simp
    | cons c2 rest2 => simp

/-- Witness for C5: a single open outer way yields a LineString. -/
theorem no_closed_outer_fallback_witness :
    (merge_ways_into_rings
        (collectWays [⟨"way", none, some [some ⟨0, 0⟩, some ⟨0, 4⟩]⟩]).1).1 = []
    ∧ build_multipolygon [⟨"way", none, some [some ⟨0, 0⟩, some ⟨0, 4⟩]⟩]
      = match (merge_ways_into_rings
          (collectWays [⟨"way", none, some [some ⟨0, 0⟩, some ⟨0, 4⟩]⟩]).1).2 with
        | [] => none
        | [c] => some (Geometry.lineString c)
        | cs => some (Geometry.multiLineString cs) :=
  ⟨by decide, no_closed_outer_fallback _ (by decide)⟩

/-- An Overpass bounding box `{minlat, minlon, maxlat, maxlon}`. -/
structure Bounds where
  minlat : ℚ
  minlon : ℚ
  maxlat : ℚ
  maxlon : ℚ
deriving DecidableEq, Repr

/-- An Overpass element (node / way / relation) with the fields the
converter reads; absent JSON fields are `none` (members default to `[]` as
in `element.get("members", [])`, tags to `[]` as in
`element.get("tags", {})`). -/
structure Element where
  type : String
  id : Int
  tags : Tags
  lat : Option ℚ
  lon : Option ℚ
  geometry : Option (List (Option Pt))
  center : Option Pt
  members : List Member
  bounds : Option Bounds
deriving DecidableEq, Repr

/-- A GeoJSON Feature: geometry plus properties.  The geometry field holds
the builder's `geometry` variable at emission time (the source emits the
feature only when that variable is not `None`). -/
structure Feature where
  geometry : Option Geometry
  properties : List (String × String)
deriving DecidableEq, Repr

/-- Dictionary assignment `props[k] = v`: overwrite an existing key or
append. -/
def setProp (props : List (String × String)) (k v : String) : List (String × String) :=
  (props.filter fun p => p.1 ≠ k) ++ [(k, v)]

/-- `element_to_feature`: convert one Overpass element to a GeoJSON Feature,
or `none` when no usable geometry can be derived. -/
def element_to_feature (element : Element) : Option Feature :=
  let elem_type := element.type
  let tags := element.tags
  let properties :=
    setProp (setProp tags "@id" (elem_type ++ "/" ++ toString element.id))
      "@type" elem_type
  let geometry : Option Geometry :=
    if elem_type = "node" then
      match element.lat, element.lon with
      | some lat, some lon => some (Geometry.point (lon, lat))
      | _, _ => none
    else if elem_type = "way" then
      let g0 : Option Geometry :=
        match element.geometry with
        | none => none
        | some [] => none
        | some geom_array =>
          let coords := coords_from_geometry geom_array
          if 2 ≤ coords.length then
            if is_closed coords && is_area tags then
              some (Geometry.polygon [coords])
            else some (Geometry.lineString coords)
          else none
      match g0 with
      | some g => some g
      | none =>
        match element.center with
        | some c => some (Geometry.point (c.lon, c.lat))
        | none => none
    else if elem_type = "relation" then
      let rel_type := (tags.lookup "type").getD ""
      let members := element.members
      let g0 : Option Geometry :=
        if (rel_type = "multipolygon" ∨ rel_type = "boundary") ∧ members ≠ []
        then build_multipolygon members
        else if rel_type = "route" ∧ members ≠ [] then
          let lines := members.filterMap fun member =>
            if member.type = "way" then
              match member.geometry with
              | none => none
              | some [] => none
              | some g =>
                let coords := coords_from_geometry g
                if 2 ≤ coords.length then some coords else none
            else none
          if lines = [] then none
          else if lines.length = 1 then
            some (Geometry.lineString (lines.headD []))
          else some (Geometry.multiLineString lines)
        else none
      match g0 with
      | some g => some g
      | none =>
        match element.center with
        | some c => some (Geometry.point (c.lon, c.lat))
        | none =>
          match element.bounds with
          | some b => some (Geometry.point
              ((b.minlon + b.maxlon) / 2, (b.minlat + b.maxlat) / 2))
          | none => none
    else none
  match geometry with
  | none => none
  | some g => some { geometry := some g, properties := properties }

/-- `elements_to_features`: map the Feature Builder over all elements in
input order, accumulating successes in order and counting skipped
elements. -/
def elements_to_features (elements : List Element) : List Feature × Nat :=
  elements.foldl
    (fun acc element =>
      match element_to_feature element with
      | some feature => (acc.1 ++ [feature], acc.2)
      | none => (acc.1, acc.2 + 1))
    ([], 0)

theorem elements_to_features_go :
    ∀ (elements : List Element) (acc : List Feature × Nat),
      elements.foldl
        (fun acc element =>
          match element_to_feature element with
          | some feature => (acc.1 ++ [feature], acc.2)
          | none => (acc.1, acc.2 + 1)) acc
      = (acc.1 ++ elements.filterMap element_to_feature,
         acc.2 + (elements.filter fun e => element_to_feature e = none).length) := by
  intro elements
  induction elements with
  | nil => intro acc; simp
  | cons e rest ih =>
    intro acc
    rw [List.foldl_cons]
    cases he : element_to_feature e with
    | none =>
      have hm : (match (none : Option Feature) with
          | some feature => (acc.1 ++ [feature], acc.2)
          | none => (acc.1, acc.2 + 1)) = (acc.1, acc.2 + 1) := rfl
      have hfil : ((e :: rest).filter fun e => element_to_feature e = none)
          = e :: (rest.filter fun e => element_to_feature e = none) := by
        simp [List.filter_cons, he]
      rw [hm, ih, hfil, List.filterMap_cons_none he]
      refine Prod.ext rfl ?_
      simp only [List.length_cons]
      omega
    | some f =>
      have hm : (match (some f : Option Feature) with
          | some feature => (acc.1 ++ [feature], acc.2)
          | none => (acc.1, acc.2 + 1)) = (acc.1 ++ [f], acc.2) := rfl
      have hfil : ((e :: rest).filter fun e => element_to_feature e = none)
          = rest.filter fun e => element_to_feature e = none := by
        simp [List.filter_cons, he]
      rw [hm, ih, hfil, List.filterMap_cons_some he]
      simp

theorem mk_feature_geom {o : Option Geometry} {props : List (String × String)}
    {f : Feature}
    (h : (match o with
          | none => none
          | some g => some ({ geometry := some g, properties := props }
              : Feature)) = some f) :
    f.geometry ≠ none := by
  cases o with
  | none => cases h
  | some g =>
    cases h
    simp

/-- C8: the Feature Collection Builder returns the successful features in
input order (it is exactly `filterMap` of the Feature Builder), counts as
skipped exactly the elements for which the Feature Builder derived no
feature, and every emitted feature carries a non-null geometry. -/
theorem elements_to_features_spec :
    (∀ elements : List Element,
      elements_to_features elements
        = (elements.filterMap element_to_feature,
           (elements.filter fun e => element_to_feature e = none).length))
    ∧ ∀ (element : Element) (f : Feature),
        element_to_feature element = some f → f.geometry ≠ none := by
  constructor
  · intro elements
    unfold elements_to_features
    rw [elements_to_features_go]
    simp
  · intro element f h
    unfold element_to_feature at h
    exact mk_feature_geom h

/-- Witness for C8's geometry-non-null part at a concrete node element. -/
theorem elements_to_features_spec_witness :
    (⟨some (Geometry.point (4, 3)),
        [("@id", "node/7"), ("@type", "node")]⟩ : Feature).geometry ≠ none :=
  elements_to_features_spec.2
    ⟨"node", 7, [], some 3, some 4, none, none, [], none⟩ _ (by decide)

/-- C9: a way whose geometry array is present but yields fewer than 2
coordinate pairs after skipping null entries falls back to the precomputed
center point (as a Point geometry) when one is present, and produces no
feature otherwise — the center fallback is not restricted to ways whose
geometry array is absent. -/
theorem way_short_geometry_center_fallback (element : Element)
    (ht : element.type = "way") (ga : List (Option Pt))
    (hg : element.geometry = some ga)
    (hlen : (coords_from_geometry ga).length < 2) :
    element_to_feature element
      = match element.center with
        | some c => some
            { geometry := some (Geometry.point (c.lon, c.lat)),
              properties := setProp (setProp element.tags "@id"
                  (element.type ++ "/" ++ toString element.id))
                "@type" element.type }
        | none => none := by
  have h2 : ¬ 2 ≤ (coords_from_geometry ga).length := by omega
  unfold element_to_feature
  rw [ht]
  cases ga with
  | nil =>
    rw [hg]
    cases element.center <;> simp [ht]
  | cons p rest =>
    rw [hg]
    cases element.center <;> simp [ht, h2]

/-- Witness for C9: a way with a one-point geometry array and a center
point. -/
theorem way_short_geometry_center_fallback_witness :
    (⟨"way", 2, [], none, none, some [some ⟨5, 6⟩], some ⟨9, 8⟩, [], none⟩
        : Element).type = "way"
    ∧ (⟨"way", 2, [], none, none, some [some ⟨5, 6⟩], some ⟨9, 8⟩, [], none⟩
        : Element).geometry = some [some ⟨5, 6⟩]
    ∧ (coords_from_geometry [some (⟨5, 6⟩ : Pt)]).length < 2
    ∧ element_to_feature
        ⟨"way", 2, [], none, none, some [some ⟨5, 6⟩], some ⟨9, 8⟩, [], none⟩
      = match (⟨"way", 2, [], none, none, some [some ⟨5, 6⟩], some ⟨9, 8⟩, [],
            none⟩ : Element).center with
        | some c => some
            { geometry := some (Geometry.point (c.lon, c.lat)),
              properties := setProp (setProp
                  (⟨"way", 2, [], none, none, some [some ⟨5, 6⟩], some ⟨9, 8⟩,
                      [], none⟩ : Element).tags "@id"
                  ((⟨"way", 2, [], none, none, some [some ⟨5, 6⟩], some ⟨9, 8⟩,
                      [], none⟩ : Element).type ++ "/" ++ toString
                    (⟨"way", 2, [], none, none, some [some ⟨5, 6⟩], some ⟨9, 8⟩,
                        [], none⟩ : Element).id))
                "@type" (⟨"way", 2, [], none, none, some [some ⟨5, 6⟩],
                    some ⟨9, 8⟩, [], none⟩ : Element).type }
        | none => none :=
  ⟨rfl, rfl, by decide,
   way_short_geometry_center_fallback _ rfl [some ⟨5, 6⟩] rfl (by decide)⟩

theorem mergeLoop_rings_closed :
    ∀ (fuel : Nat) (rem : List Chain) (r : Chain),
      r ∈ (mergeLoop fuel rem).1 → is_closed r = true := by
  intro fuel
  induction fuel with
  | zero =>
    intro rem r h
    cases rem with
    | nil => simp [mergeLoop] at h
    | cons w rest => simp [mergeLoop] at h
  | succ f ih =>
    intro rem r h
    cases rem with
    | nil => simp [mergeLoop] at h
    | cons w rest =>
      by_cases hcl : is_closed (growChain rest.length w rest).1 = true
      · have hml : mergeLoop (f + 1) (w :: rest)
            = ((growChain rest.length w rest).1
                :: (mergeLoop f (growChain rest.length w rest).2).1,
               (mergeLoop f (growChain rest.length w rest).2).2) := by
          simp only [mergeLoop]
          rw [if_pos hcl]
        rw [hml] at h
        rcases List.mem_cons.mp h with rfl | h2
        · exact hcl
        · exact ih _ r h2
      · have hml : mergeLoop (f + 1) (w :: rest)
            = ((mergeLoop f (growChain rest.length w rest).2).1,
               (growChain rest.length w rest).1
                :: (mergeLoop f (growChain rest.length w rest).2).2) := by
          simp only [mergeLoop]
          rw [if_neg hcl]
        rw [hml] at h
        exact ih _ r h

theorem merge_rings_closed (ways : List Chain) (r : Chain)
    (h : r ∈ (merge_ways_into_rings ways).1) : is_closed r = true := by
  unfold merge_ways_into_rings at h
  by_cases hw : ways = []
  · rw [if_pos hw] at h
    simp at h
  · rw [if_neg hw] at h
    exact mergeLoop_rings_closed _ _ r h

/-- The rings of an emitted Polygon or MultiPolygon geometry (empty for the
other variants). -/
def ringsOfGeometry : Geometry → List Chain
  | Geometry.polygon rings => rings
  | Geometry.multiPolygon ps => ps.flatten
  | _ => []

theorem seeds_headD (outs : List Chain) :
    (outs.map fun r => ([r] : List Chain)).map (fun g => g.headD []) = outs := by
  rw [List.map_map]
  have hcomp : ((fun (g : List Chain) => g.headD []) ∘ fun r => ([r] : List Chain))
      = id := by
    funext r
    rfl
  rw [hcomp, List.map_id]

theorem assignAll_seeds_mem (outs inners : List Chain) (hko : outs ≠ [])
    {gg : List Chain} (hgg : gg ∈ assignAll (outs.map fun r => [r]) inners)
    {r : Chain} (hrg : r ∈ gg) : r ∈ outs ∨ r ∈ inners := by
  have hne : (outs.map fun r => ([r] : List Chain)) ≠ [] := by simp [hko]
  have hel : ∀ g ∈ (outs.map fun r => ([r] : List Chain)), g ≠ [] := by
    intro g hg
    obtain ⟨x, _, rfl⟩ := List.mem_map.mp hg
    simp
  obtain ⟨s1, s2, s3, s4⟩ := assignAll_shape inners _ hne hel
  have hggne : gg ≠ [] := s4 gg hgg
  cases gg with
  | nil => exact absurd rfl hggne
  | cons x t =>
    rcases List.mem_cons.mp hrg with rfl | hrt
    · left
      have hmem : r ∈ (assignAll (outs.map fun r => [r]) inners).map
          (fun g => g.headD []) :=
        List.mem_map.mpr ⟨r :: t, hgg, rfl⟩
      rw [s1, seeds_headD] at hmem
      exact hmem
    · right
      have hmem : r ∈ ((assignAll (outs.map fun r => [r]) inners).map
          List.tail).flatten :=
        List.mem_flatten.mpr ⟨(x :: t).tail,
          List.mem_map.mpr ⟨x :: t, hgg, rfl⟩, by simpa using hrt⟩
      have hmem2 : r ∈ (↑((assignAll (outs.map fun r => [r]) inners).map
          List.tail).flatten : Multiset Chain) := Multiset.mem_coe.mpr hmem
      rw [s3, tails_of_seeds] at hmem2
      simpa using hmem2

theorem build_multipolygon_rings_closed (members : List Member) (g : Geometry)
    (h : build_multipolygon members = some g) :
    ∀ r ∈ ringsOfGeometry g, is_closed r = true := by
  unfold build_multipolygon at h
  dsimp only at h
  by_cases ho : (merge_ways_into_rings (collectWays members).1).1 = []
  · rw [if_pos ho] at h
    by_cases hu : (merge_ways_into_rings (collectWays members).1).2 ≠ []
    · rw [if_pos hu] at h
      by_cases h1 : (merge_ways_into_rings (collectWays members).1).2.length = 1
      · rw [if_pos h1] at h
        cases h
        intro r hr
        simp [ringsOfGeometry] at hr
      · rw [if_neg h1] at h
        cases h
        intro r hr
        simp [ringsOfGeometry] at hr
    · rw [if_neg hu] at h
      cases h
  · rw [if_neg ho] at h
    have hclosed : ∀ r, r ∈ (merge_ways_into_rings (collectWays members).1).1
          ∨ r ∈ (merge_ways_into_rings (collectWays members).2).1 →
        is_closed r = true := by
      intro r hr
      rcases hr with hr | hr
      · exact merge_rings_closed _ r hr
      · exact merge_rings_closed _ r hr
    by_cases h1 : (assignAll
        ((merge_ways_into_rings (collectWays members).1).1.map fun r => [r])
        (merge_ways_into_rings (collectWays members).2).1).length = 1
    · rw [if_pos h1] at h
      cases h
      intro r hr
      have hpne : assignAll
          ((merge_ways_into_rings (collectWays members).1).1.map fun r => [r])
          (merge_ways_into_rings (collectWays members).2).1 ≠ [] := by
        intro hc
        rw [hc] at h1
        simp at h1
      have hhead : (assignAll
          ((merge_ways_into_rings (collectWays members).1).1.map fun r => [r])
          (merge_ways_into_rings (collectWays members).2).1).headD []
          ∈ assignAll
          ((merge_ways_into_rings (collectWays members).1).1.map fun r => [r])
          (merge_ways_into_rings (collectWays members).2).1 :=
        headD_mem _ hpne
      have hr2 : r ∈ (assignAll
          ((merge_ways_into_rings (collectWays members).1).1.map fun r => [r])
          (merge_ways_into_rings (collectWays members).2).1).headD [] := by
        simpa [ringsOfGeometry] using hr
      exact hclosed r (assignAll_seeds_mem _ _ ho hhead hr2)
    · rw [if_neg h1] at h
      cases h
      intro r hr
      simp only [ringsOfGeometry] at hr
      obtain ⟨gg, hgg, hrg⟩ := List.mem_flatten.mp hr
      exact hclosed r (assignAll_seeds_mem _ _ ho hgg hrg)

theorem mk_feature_eq {o : Option Geometry} {props : List (String × String)}
    {f : Feature}
    (h : (match o with
          | none => none
          | some g => some ({ geometry := some g, properties := props }
              : Feature)) = some f) :
    f.geometry = o := by
  cases o with
  | none => cases h
  | some g =>
    cases h
    rfl

theorem element_to_feature_rings_closed (element : Element) (f : Feature)
    (g : Geometry) (hf : element_to_feature element = some f)
    (hg : f.geometry = some g) :
    ∀ r ∈ ringsOfGeometry g, is_closed r = true := by
  unfold element_to_feature at hf
  have h2 := (mk_feature_eq hf).symm.trans hg
  clear hf hg
  dsimp only at h2
  by_cases hn : element.type = "node"
  · rw [if_pos hn] at h2
    split at h2
    · cases h2
      intro r hr
      simp [ringsOfGeometry] at hr
    · cases h2
  · rw [if_neg hn] at h2
    by_cases hw : element.type = "way"
    · rw [if_pos hw] at h2
      split at h2
      · rename_i gg heq
        cases h2
        split at heq
        · cases heq
        · cases heq
        · split at heq
          · split at heq
            · rename_i hguard
              cases heq
              intro r hr
              simp only [ringsOfGeometry, List.mem_singleton] at hr
              subst hr
              exact (Bool.and_eq_true_iff.mp hguard).1
            · cases heq
              intro r hr
              simp [ringsOfGeometry] at hr
          · cases heq
      · split at h2
        · cases h2
          intro r hr
          simp [ringsOfGeometry] at hr
        · cases h2
    · rw [if_neg hw] at h2
      by_cases hrel : element.type = "relation"
      · rw [if_pos hrel] at h2
        split at h2
        · rename_i gg heq
          cases h2
          by_cases hmp : (((element.tags.lookup "type").getD "" = "multipolygon"
                ∨ (element.tags.lookup "type").getD "" = "boundary")
              ∧ element.members ≠ [])
          · rw [if_pos hmp] at heq
            exact build_multipolygon_rings_closed _ _ heq
          · rw [if_neg hmp] at heq
            by_cases hrt : ((element.tags.lookup "type").getD "" = "route"
                ∧ element.members ≠ [])
            · rw [if_pos hrt] at heq
              split at heq
              · cases heq
              · split at heq
                · cases heq
                  intro r hr
                  simp [ringsOfGeometry] at hr
                · cases heq
                  intro r hr
                  simp [ringsOfGeometry] at hr
            · rw [if_neg hrt] at heq
              cases heq
        · split at h2
          · cases h2
            intro r hr
            simp [ringsOfGeometry] at hr
          · split at h2
            · cases h2
              intro r hr
              simp [ringsOfGeometry] at hr
            · cases h2
      · rw [if_neg hrel] at h2
        cases h2

/-- C7: every ring appearing in an emitted Polygon or MultiPolygon geometry
— each ring produced by the Way Stitcher, each outer ring and each hole
assembled by `build_multipolygon`, and the single ring of a closed
area-classified way's Polygon — is closed (its first and last coordinate
pairs are identical) and has length ≥ 4. -/
theorem emitted_rings_closed :
    (∀ (ways : List Chain) (r : Chain), r ∈ (merge_ways_into_rings ways).1 →
        4 ≤ r.length ∧ r.headD (0, 0) = r.getLastD (0, 0))
    ∧ ∀ (element : Element) (f : Feature) (g : Geometry),
        element_to_feature element = some f → f.geometry = some g →
        ∀ r ∈ ringsOfGeometry g,
          4 ≤ r.length ∧ r.headD (0, 0) = r.getLastD (0, 0) := by
  have key : ∀ r : Chain, is_closed r = true →
      4 ≤ r.length ∧ r.headD (0, 0) = r.getLastD (0, 0) := by
    intro r h
    obtain ⟨h1, h2, h3⟩ := (is_closed_iff r).mp h
    exact ⟨h1, Prod.ext h2 h3⟩
  constructor
  · intro ways r h
    exact key r (merge_rings_closed ways r h)
  · intro element f g hf hg r hr
    exact key r (element_to_feature_rings_closed element f g hf hg r hr)

/-- Witness for C7: the Polygon emitted for a closed `natural=water` way
carries the closed 4-point ring `[[0,0],[1,0],[1,1],[0,0]]`. -/
theorem emitted_rings_closed_witness :
    4 ≤ ([(0, 0), (1, 0), (1, 1), (0, 0)] : Chain).length
    ∧ ([(0, 0), (1, 0), (1, 1), (0, 0)] : Chain).headD (0, 0)
        = ([(0, 0), (1, 0), (1, 1), (0, 0)] : Chain).getLastD (0, 0) :=
  emitted_rings_closed.2
    ⟨"way", 1, [("natural", "water")], none, none,
      some [some ⟨0, 0⟩, some ⟨0, 1⟩, some ⟨1, 1⟩, some ⟨0, 0⟩], none, [], none⟩
    ⟨some (Geometry.polygon [[(0, 0), (1, 0), (1, 1), (0, 0)]]),
      [("natural", "water"), ("@id", "way/1"), ("@type", "way")]⟩
    (Geometry.polygon [[(0, 0), (1, 0), (1, 1), (0, 0)]])
    (by decide) rfl
    [(0, 0), (1, 0), (1, 1), (0, 0)] (by decide)

end Fetch
